import Mathlib

/-!
Verification development for the BioAiSaaS core: the task-dependency
scheduler (`biomni/agent_orchestrator.py`) and the sandboxed executor
(`biomni/python_sandbox.py`), shallowly embedded in Lean 4.

Conventions of the embedding:
* Python lists become `List`, dicts keyed by task id become association
  lists `List (String × _)` with append-at-end insertion (Python dicts
  preserve insertion order, and the scheduler only ever inserts fresh
  keys or overwrites the same key it just wrote).
* `datetime.now()` timestamps are modelled by a `Bool` flag recording
  whether the field has been stamped (`True` = set, `False` = `None`);
  their numeric value never influences control flow.
* The execution delegate (`_execute_single_task` + `asyncio.gather` with
  `return_exceptions=True`) is abstracted as a function
  `AgentTask → Except String String`: `.error e` models the coroutine
  raising an exception with message `e`, `.ok r` a normal result.
  The in-repo mock delegate never raises and is modelled separately.
* Exceptions propagating out of a Python function are modelled by
  `Except String _` results of the embedded function.
-/

namespace Biomni

/-! ### Injectivity of `Nat.repr`

The orchestrator derives task ids as `f"task_{i}_{self.session_id}"`;
distinctness of the generated ids reduces to injectivity of the decimal
rendering of `Nat`, which we prove from the definition of
`Nat.toDigitsCore` by exhibiting a left inverse (decimal parsing). -/

/-- Numeric value of a decimal digit character (left inverse of
`Nat.digitChar` on digits `0`–`9`). -/
def charVal (c : Char) : Nat :=
  if c = '0' then 0 else
  if c = '1' then 1 else
  if c = '2' then 2 else
  if c = '3' then 3 else
  if c = '4' then 4 else
  if c = '5' then 5 else
  if c = '6' then 6 else
  if c = '7' then 7 else
  if c = '8' then 8 else
  if c = '9' then 9 else 0

/-- Decimal value of a digit-character list (big-endian, as produced by
`Nat.toDigits 10`). -/
def listVal (l : List Char) : Nat :=
  l.foldl (fun a c => 10 * a + charVal c) 0

theorem charVal_digitChar : ∀ d : Nat, d < 10 → charVal (Nat.digitChar d) = d := by
  decide

theorem listVal_append_singleton (l : List Char) (c : Char) :
    listVal (l ++ [c]) = 10 * listVal l + charVal c := by
  simp [listVal, List.foldl_append]

theorem toDigitsCore_append (f : Nat) :
    ∀ (n : Nat) (ds : List Char),
      Nat.toDigitsCore 10 f n ds = Nat.toDigitsCore 10 f n [] ++ ds := by
  induction f with
  | zero => intro n ds; simp [Nat.toDigitsCore]
  | succ f ih =>
    intro n ds
    simp only [Nat.toDigitsCore]
    by_cases h : n / 10 = 0
    · simp [h]
    · simp only [h, if_false]
      rw [ih (n / 10) (Nat.digitChar (n % 10) :: ds),
        ih (n / 10) [Nat.digitChar (n % 10)], List.append_assoc]
      rfl

theorem listVal_toDigitsCore :
    ∀ n f : Nat, n < f → listVal (Nat.toDigitsCore 10 f n []) = n := by
  intro n
  induction n using Nat.strong_induction_on with
  | _ n ih =>
    intro f hf
    match f, hf with
    | f + 1, hf =>
      simp only [Nat.toDigitsCore]
      by_cases h : n / 10 = 0
      · have hn : n < 10 := by omega
        simp only [h, if_true]
        have : listVal [Nat.digitChar (n % 10)] = charVal (Nat.digitChar (n % 10)) := by
          simp [listVal]
        rw [this, charVal_digitChar (n % 10) (Nat.mod_lt n (by omega))]
        omega
      · simp only [h, if_false]
        rw [toDigitsCore_append f (n / 10) [Nat.digitChar (n % 10)],
          listVal_append_singleton]
        have hlt : n / 10 < n := Nat.div_lt_self (by omega) (by omega)
        rw [ih (n / 10) hlt f (by omega),
          charVal_digitChar (n % 10) (Nat.mod_lt n (by omega))]
        omega

theorem listVal_toDigits (n : Nat) : listVal (Nat.toDigits 10 n) = n :=
  listVal_toDigitsCore n (n + 1) (Nat.lt_succ_self n)

theorem natRepr_injective : ∀ m n : Nat, Nat.repr m = Nat.repr n → m = n := by
  intro m n h
  have hdig : Nat.toDigits 10 m = Nat.toDigits 10 n := by
    have : (Nat.toDigits 10 m).asString.data = (Nat.toDigits 10 n).asString.data := by
      rw [show (Nat.toDigits 10 m).asString = Nat.repr m from rfl,
        show (Nat.toDigits 10 n).asString = Nat.repr n from rfl, h]
    simpa [List.asString] using this
  have := congrArg listVal hdig
  rwa [listVal_toDigits, listVal_toDigits] at this

/-! ### Data model of `agent_orchestrator.py` -/

/-- `class AgentRole(Enum)` — available agent roles in the swarm. -/
inductive AgentRole
  | coordinator
  | researcher
  | analyst
  | executor
  | validator
deriving DecidableEq

/-- The `.value` string of each `AgentRole` member. -/
def AgentRole.value : AgentRole → String
  | .coordinator => "coordinator"
  | .researcher => "researcher"
  | .analyst => "analyst"
  | .executor => "executor"
  | .validator => "validator"

/-- The enum lookup `AgentRole(v)`: `some r` when `v` is the value of a
member `r`, `none` when the constructor would raise `ValueError`. -/
def agentRoleOfValue (v : String) : Option AgentRole :=
  if v = "coordinator" then some .coordinator else
  if v = "researcher" then some .researcher else
  if v = "analyst" then some .analyst else
  if v = "executor" then some .executor else
  if v = "validator" then some .validator else none

/-- `class TaskStatus(Enum)` — task execution status. -/
inductive TaskStatus
  | pending
  | in_progress
  | completed
  | failed
  | cancelled
deriving DecidableEq

/-- The `.value` string of each `TaskStatus` member. -/
def TaskStatus.value : TaskStatus → String
  | .pending => "pending"
  | .in_progress => "in_progress"
  | .completed => "completed"
  | .failed => "failed"
  | .cancelled => "cancelled"

/-- `@dataclass AgentTask`.  `created_at` is always stamped at creation
and never read, so it is omitted; `started_at`/`completed_at` are
modelled as presence flags (`false` = `None`). -/
structure AgentTask where
  task_id : String
  role : AgentRole
  description : String
  dependencies : List String := []
  status : TaskStatus := .pending
  result : Option String := none
  error : Option String := none
  started_at : Bool := false
  completed_at : Bool := false
deriving DecidableEq

/-- One subtask specification dict as consumed by `_create_task_graph`:
`role` is optional (`subtask.get("role", "executor")`), `description`
mandatory (`subtask["description"]`), `dependencies` optional
(`subtask.get("dependencies", [])`). -/
structure SubtaskSpec where
  role : Option String := none
  description : String
  dependencies : Option (List String) := none
deriving DecidableEq

/-- The id string `f"task_{i}_{self.session_id}"`. -/
def mkTaskId (i : Nat) (session_id : String) : String :=
  "task_" ++ Nat.repr i ++ "_" ++ session_id

/-- Body of the `for i, subtask in enumerate(subtasks)` loop in
`_create_task_graph`, starting at index `i`.  An unknown role value makes
`AgentRole(...)` raise `ValueError` (`Except.error`), abandoning the whole
construction; dependency ids are **not** validated. -/
def create_task_graph_from (session_id : String) :
    Nat → List SubtaskSpec → Except String (List AgentTask)
  | _, [] => .ok []
  | i, s :: rest =>
    match agentRoleOfValue (s.role.getD "executor") with
    | none =>
      .error ("ValueError: " ++ s.role.getD "executor" ++ " is not a valid AgentRole")
    | some r =>
      (create_task_graph_from session_id (i + 1) rest).map fun ts =>
        { task_id := mkTaskId i session_id
          role := r
          description := s.description
          dependencies := s.dependencies.getD [] } :: ts

/-- `AgentOrchestrator._create_task_graph`. -/
def create_task_graph (session_id : String) (subtasks : List SubtaskSpec) :
    Except String (List AgentTask) :=
  create_task_graph_from session_id 0 subtasks

/-- The `ready_tasks` list comprehension of `_execute_task_graph`
(lines 122–125): pending tasks whose every dependency id is in
`self.state.completed_tasks`.  Note it inspects only `dependencies`,
never `status`. -/
def ready_tasks (pending_tasks : List AgentTask) (completed_tasks : List String) :
    List AgentTask :=
  pending_tasks.filter fun t => t.dependencies.all fun dep => completed_tasks.contains dep

/-- One entry of the `results` dict: `{"status": ..., "result": ..., "error": ...}`. -/
structure ResultEntry where
  status : String
  result : Option String
  error : Option String
deriving DecidableEq

/-- The mutable state threaded through `_execute_task_graph`'s `while`
loop: the `results` dict, `self.state.completed_tasks`, the final records
of the task objects already processed (Python mutates them in place; we
collect the updated records in processing order), and `pending_tasks`. -/
structure LoopState where
  results : List (String × ResultEntry)
  completed_tasks : List String
  finished : List AgentTask
  pending_tasks : List AgentTask
deriving DecidableEq

/-- The per-task update of lines 142–157.  `_execute_single_task` has
already stamped `started_at` and set `in_progress` before the batch join;
the loop then overwrites `status`, records `result`/`error`, and stamps
`completed_at`. -/
def record_outcome (t : AgentTask) (outcome : Except String String) : AgentTask :=
  match outcome with
  | .error e =>
    { t with status := .failed, error := some e, started_at := true, completed_at := true }
  | .ok r =>
    { t with status := .completed, result := some r, started_at := true, completed_at := true }

/-- `pending_tasks.remove(task)` — removes the first occurrence; task
objects are compared by identity here, which (ids being the discriminating
field) we model as first-match on `task_id`. -/
def remove_task (pending_tasks : List AgentTask) (tid : String) : List AgentTask :=
  pending_tasks.eraseP fun t => t.task_id == tid

/-- The `for task, result in zip(batch, batch_results)` loop
(lines 142–159): dispatch each batch task to the delegate, record the
outcome on the task, insert its `results` entry, append its id to
`completed_tasks` on success only, and remove it from `pending_tasks`. -/
def run_batch (delegate : AgentTask → Except String String) :
    List AgentTask → LoopState → LoopState
  | [], st => st
  | t :: rest, st =>
    let outcome := delegate t
    let t' := record_outcome t outcome
    run_batch delegate rest
      { results := st.results ++ [(t.task_id, ⟨t'.status.value, t'.result, t'.error⟩)]
        completed_tasks :=
          match outcome with
          | .ok _ => st.completed_tasks ++ [t.task_id]
          | .error _ => st.completed_tasks
        finished := st.finished ++ [t']
        pending_tasks := remove_task st.pending_tasks t.task_id }

theorem run_batch_pending_length_le (delegate : AgentTask → Except String String) :
    ∀ (batch : List AgentTask) (st : LoopState),
      (run_batch delegate batch st).pending_tasks.length ≤ st.pending_tasks.length := by
  intro batch
  induction batch with
  | nil => intro st; exact Nat.le_refl _
  | cons t rest ih =>
    intro st
    exact Nat.le_trans (ih _) (List.length_eraseP_le _)

theorem run_batch_pending_length_lt (delegate : AgentTask → Except String String)
    (t : AgentTask) (rest : List AgentTask) (st : LoopState)
    (ht : t ∈ st.pending_tasks) :
    (run_batch delegate (t :: rest) st).pending_tasks.length < st.pending_tasks.length := by
  have hdrop : (remove_task st.pending_tasks t.task_id).length
      = st.pending_tasks.length - 1 :=
    List.length_eraseP_of_mem ht (by simp)
  have hpos : 0 < st.pending_tasks.length := List.length_pos.mpr (by
    intro h; rw [h] at ht; exact absurd ht (List.not_mem_nil t))
  calc (run_batch delegate (t :: rest) st).pending_tasks.length
      ≤ (remove_task st.pending_tasks t.task_id).length := by
        simpa [run_batch] using run_batch_pending_length_le delegate rest _
    _ < st.pending_tasks.length := by omega

/-- The `while pending_tasks:` loop of `_execute_task_graph`
(lines 120–159).  The three exits: `pending_tasks` empty (normal), the
deadlock `break` (no ready tasks), and — only when
`max_parallel_agents = 0`, where the source loops forever — a degenerate
exit on an empty batch, unreachable for any positive cap. -/
def execute_task_graph_loop (delegate : AgentTask → Except String String)
    (max_parallel_agents : Nat) (st : LoopState) : LoopState :=
  if hp : st.pending_tasks = [] then st
  else
    match hr : ready_tasks st.pending_tasks st.completed_tasks with
    | [] => st
    | t :: rest =>
      let batch_size := min (t :: rest).length max_parallel_agents
      match hb : (t :: rest).take batch_size with
      | [] => st
      | b :: bs =>
        execute_task_graph_loop delegate max_parallel_agents
          (run_batch delegate (b :: bs) st)
  termination_by st.pending_tasks.length
  decreasing_by
    refine run_batch_pending_length_lt delegate b bs st ?_
    have hbmem : b ∈ (t :: rest).take batch_size := by rw [hb]; exact List.mem_cons_self b bs
    have : b ∈ ready_tasks st.pending_tasks st.completed_tasks := by
      rw [hr]; exact List.mem_of_mem_take hbmem
    exact List.mem_of_mem_filter this

/-- `AgentOrchestrator._execute_task_graph`, started on a fresh
`results = {}` and a given initial `completed_tasks` (empty for a fresh
orchestrator, since `SwarmState` is created in `__init__`). -/
def execute_task_graph (delegate : AgentTask → Except String String)
    (max_parallel_agents : Nat) (tasks : List AgentTask)
    (completed_tasks : List String) : LoopState :=
  execute_task_graph_loop delegate max_parallel_agents
    { results := [], completed_tasks := completed_tasks
      finished := [], pending_tasks := tasks }

/-- The dictionary returned by `AgentOrchestrator.orchestrate`
(lines 90–100).  `metadata` counts statuses over the (mutated) `tasks`
objects, i.e. over `finished ++ pending_tasks` of the final loop state. -/
structure OrchestrationResult where
  main_task : String
  status : String
  results : List (String × ResultEntry)
  total_tasks : Nat
  completed_tasks_count : Nat
  failed_tasks_count : Nat
  session_id : String
deriving DecidableEq

/-- `AgentOrchestrator.orchestrate` for a fresh orchestrator
(`SwarmState.completed_tasks = []`): build the graph (propagating the
`ValueError` of an unknown role), run the loop, compile the result. -/
def orchestrate (delegate : AgentTask → Except String String)
    (max_parallel_agents : Nat) (session_id : String)
    (main_task : String) (subtasks : List SubtaskSpec) :
    Except String OrchestrationResult :=
  (create_task_graph session_id subtasks).map fun tasks =>
    let st := execute_task_graph delegate max_parallel_agents tasks []
    let finalTasks := st.finished ++ st.pending_tasks
    { main_task := main_task
      status := "completed"
      results := st.results
      total_tasks := tasks.length
      completed_tasks_count := (finalTasks.filter fun t => t.status == .completed).length
      failed_tasks_count := (finalTasks.filter fun t => t.status == .failed).length
      session_id := session_id }

/-- The in-repo mock delegate `_execute_single_task` (lines 163–184):
never raises, returns the mock result dict, here rendered as its
`output` string. -/
def mock_delegate (t : AgentTask) : Except String String :=
  .ok ("Task " ++ t.description ++ " completed by " ++ t.role.value)

/-! ### Data model of `python_sandbox.py`

The effectful boundary (temp-file creation, `subprocess.Popen`,
`process.communicate`) is abstracted as a `SandboxWorld` describing what
the OS does on this call; `execute` / `_execute_with_limits` are then
pure functions of that world.  The float field `execution_time` and the
constant-`0` `memory_used` bookkeeping never influence control flow;
`execution_time` (wall-clock float) is omitted, `memory_used` kept. -/

/-- `@dataclass ExecutionResult`. -/
structure ExecutionResult where
  success : Bool
  stdout : String
  stderr : String
  return_code : Int
  memory_used : Nat
deriving DecidableEq

/-- What the child process launch does on this call: it completes with a
return code and drained streams, it exceeds the wall-clock timeout (the
partial output captured before the kill is carried so we can check it is
discarded), or `subprocess.Popen` itself raises. -/
inductive SpawnBehavior
  | completes (returncode : Int) (stdout stderr : String)
  | timesOut (partial_stdout partial_stderr : String)
  | raises (msg : String)
deriving DecidableEq

/-- What the `with tempfile.NamedTemporaryFile(delete=False)` block does
on this call: the artifact is created at `path` and the wrapped program
written into it; creation itself raises (e.g. `OSError`) before any file
exists; or the file is created but `f.write` then raises inside the
`with` block — the file already exists on disk (`delete=False`) and the
exception propagates before the `try/finally` is reached. -/
inductive TempFileBehavior
  | created (path : String)
  | createRaises (msg : String)
  | createdWriteRaises (path msg : String)
deriving DecidableEq

/-- The OS behaviour relevant to one `execute()` call. -/
structure SandboxWorld where
  temp : TempFileBehavior
  spawn : SpawnBehavior
deriving DecidableEq

/-- The timeout diagnostic `f'Execution timeout after {self.timeout_seconds}s'`. -/
def timeout_message (timeout_seconds : Nat) : String :=
  "Execution timeout after " ++ Nat.repr timeout_seconds ++ "s"

/-- `PythonSandbox._execute_with_limits` (lines 107–162).  Note the
blanket `except Exception` of lines 153–162: a raising launch is caught
and turned into an `ExecutionResult`, not propagated. -/
def execute_with_limits (timeout_seconds : Nat) (spawn : SpawnBehavior) :
    ExecutionResult :=
  match spawn with
  | .completes rc out err =>
    { success := rc == 0, stdout := out, stderr := err, return_code := rc, memory_used := 0 }
  | .timesOut _ _ =>
    { success := false, stdout := "", stderr := timeout_message timeout_seconds
      return_code := -1, memory_used := 0 }
  | .raises msg =>
    { success := false, stdout := "", stderr := msg, return_code := -1, memory_used := 0 }

/-- `PythonSandbox.execute` (lines 52–81).  Returns the outcome (or the
propagated exception) together with the list of per-call temporary
artifacts still on disk when the call returns.  The `finally` of
lines 78–81 (`if os.path.exists(temp_file): os.remove(temp_file)`) runs
on every exit from the `try` — but the `with` block of lines 66–72 sits
*before* the `try`, so an exception raised by `f.write` after the file
was created (`delete=False`) propagates with the artifact still on
disk. -/
def execute (timeout_seconds : Nat) (w : SandboxWorld) :
    Except String ExecutionResult × List String :=
  match w.temp with
  | .createRaises msg =>
    -- `NamedTemporaryFile` raised: the exception propagates, no artifact exists
    (.error msg, [])
  | .createdWriteRaises path msg =>
    -- the file was created, then `f.write` raised inside the `with` block:
    -- the exception propagates before the try/finally, leaving the file behind
    (.error msg, [path])
  | .created temp_file =>
    let files := [temp_file]
    let result := execute_with_limits timeout_seconds w.spawn
    (.ok result, if files.contains temp_file then files.erase temp_file else files)

/-! ### Characterization of `run_batch` -/

/-- Whether a delegate outcome is a success (the `isinstance(result,
Exception)` test of line 143, negated). -/
def outcome_ok (outcome : Except String String) : Bool :=
  match outcome with
  | .ok _ => true
  | .error _ => false

/-- The `results[task.task_id] = {...}` entry written for a dispatched task. -/
def outcome_entry (delegate : AgentTask → Except String String) (u : AgentTask) :
    String × ResultEntry :=
  (u.task_id,
    ⟨(record_outcome u (delegate u)).status.value,
     (record_outcome u (delegate u)).result,
     (record_outcome u (delegate u)).error⟩)

theorem run_batch_results (delegate : AgentTask → Except String String) :
    ∀ (batch : List AgentTask) (st : LoopState),
      (run_batch delegate batch st).results
        = st.results ++ batch.map (outcome_entry delegate) := by
  intro batch
  induction batch with
  | nil => intro st; simp [run_batch]
  | cons t rest ih =>
    intro st
    simp only [run_batch, List.map_cons]
    rw [ih]
    simp [outcome_entry, List.append_assoc]

theorem run_batch_completed (delegate : AgentTask → Except String String) :
    ∀ (batch : List AgentTask) (st : LoopState),
      (run_batch delegate batch st).completed_tasks
        = st.completed_tasks
          ++ (batch.filter fun u => outcome_ok (delegate u)).map (·.task_id) := by
  intro batch
  induction batch with
  | nil => intro st; simp [run_batch]
  | cons t rest ih =>
    intro st
    simp only [run_batch]
    rw [ih]
    cases h : delegate t with
    | ok r => simp [outcome_ok, h, List.filter_cons, List.append_assoc]
    | error e => simp [outcome_ok, h, List.filter_cons]

theorem run_batch_finished (delegate : AgentTask → Except String String) :
    ∀ (batch : List AgentTask) (st : LoopState),
      (run_batch delegate batch st).finished
        = st.finished ++ batch.map fun u => record_outcome u (delegate u) := by
  intro batch
  induction batch with
  | nil => intro st; simp [run_batch]
  | cons t rest ih =>
    intro st
    simp only [run_batch, List.map_cons]
    rw [ih]
    simp [List.append_assoc]

theorem run_batch_pending_sublist (delegate : AgentTask → Except String String) :
    ∀ (batch : List AgentTask) (st : LoopState),
      List.Sublist (run_batch delegate batch st).pending_tasks st.pending_tasks := by
  intro batch
  induction batch with
  | nil => intro st; exact List.Sublist.refl _
  | cons t rest ih =>
    intro st
    exact List.Sublist.trans (ih _) (List.eraseP_sublist _)

theorem run_batch_completed_mono (delegate : AgentTask → Except String String)
    (batch : List AgentTask) (st : LoopState) (x : String)
    (hx : x ∈ st.completed_tasks) :
    x ∈ (run_batch delegate batch st).completed_tasks := by
  rw [run_batch_completed]
  exact List.mem_append_left _ hx

/-- After a batch containing `t` is run, no task carrying `t`'s id is
left in `pending_tasks` — provided the pending ids were duplicate-free,
as they are for any graph built by `_create_task_graph`. -/
theorem run_batch_pending_id_removed (delegate : AgentTask → Except String String) :
    ∀ (batch : List AgentTask) (st : LoopState) (t : AgentTask),
      (st.pending_tasks.map (·.task_id)).Nodup → t ∈ batch →
      ∀ u ∈ (run_batch delegate batch st).pending_tasks, u.task_id ≠ t.task_id := by
  intro batch
  induction batch with
  | nil => intro st t _ ht; exact absurd ht (List.not_mem_nil t)
  | cons b rest ih =>
    intro st t hnodup ht u hu
    have hsub : List.Sublist (remove_task st.pending_tasks b.task_id) st.pending_tasks :=
      List.eraseP_sublist _
    have hnodup' : ((remove_task st.pending_tasks b.task_id).map (·.task_id)).Nodup :=
      List.Nodup.sublist (List.Sublist.map _ hsub) hnodup
    rcases List.mem_cons.mp ht with rfl | ht'
    · -- the head of the batch is `t` itself: its id is erased in this very step
      have hu' : u ∈ remove_task st.pending_tasks t.task_id := by
        have := run_batch_pending_sublist delegate rest
          { results := st.results ++ [(t.task_id,
              ⟨(record_outcome t (delegate t)).status.value,
               (record_outcome t (delegate t)).result,
               (record_outcome t (delegate t)).error⟩)]
            completed_tasks := match delegate t with
              | .ok _ => st.completed_tasks ++ [t.task_id]
              | .error _ => st.completed_tasks
            finished := st.finished ++ [record_outcome t (delegate t)]
            pending_tasks := remove_task st.pending_tasks t.task_id }
        exact this.mem (by
          simpa [run_batch, record_outcome] using hu)
      intro heq
      -- `u` survives the erase yet carries the erased id: contradicts Nodup
      by_cases hmem : ∃ v ∈ st.pending_tasks, v.task_id = t.task_id
      · obtain ⟨v, hv, hvid⟩ := hmem
        obtain ⟨w, l₁, l₂, hl₁, hpw, hsplit, herase⟩ :=
          List.exists_of_eraseP (p := fun x => x.task_id == t.task_id) hv (by simp [hvid])
        rw [remove_task, herase] at hu'
        rcases List.mem_append.mp hu' with h₁ | h₂
        · exact absurd (by simp [heq] : (u.task_id == t.task_id) = true)
            (by simpa using hl₁ u h₁)
        · -- `u ∈ l₂` with the same id as the erased witness: contradicts Nodup
          have hsl : List.Sublist (w :: l₂) st.pending_tasks := by
            rw [hsplit]; exact List.sublist_append_right l₁ (w :: l₂)
          have hwl₂ : ((w :: l₂).map (·.task_id)).Nodup :=
            List.Nodup.sublist (List.Sublist.map _ hsl) hnodup
          have hwid : w.task_id = t.task_id := by simpa using hpw
          have : u.task_id ∈ l₂.map (·.task_id) := List.mem_map_of_mem _ h₂
          rw [heq, ← hwid] at this
          exact (List.nodup_cons.mp (by simpa using hwl₂)).1 this
      · -- no task with that id existed, so none survives either
        push_neg at hmem
        have hu'' : u ∈ st.pending_tasks := List.Sublist.mem hu' hsub
        exact hmem u hu'' heq
    · -- `t` is dispatched later in the batch: apply the inductive hypothesis
      exact ih _ t hnodup' ht' u (by
        simpa [run_batch, record_outcome] using hu)

/-! ### Unfolding equations of the scheduler loop -/

theorem loop_eq_done (delegate : AgentTask → Except String String)
    (cap : Nat) (st : LoopState) (hp : st.pending_tasks = []) :
    execute_task_graph_loop delegate cap st = st := by
  rw [execute_task_graph_loop, dif_pos hp]

theorem loop_eq_break (delegate : AgentTask → Except String String)
    (cap : Nat) (st : LoopState)
    (hready : ready_tasks st.pending_tasks st.completed_tasks = []) :
    execute_task_graph_loop delegate cap st = st := by
  rw [execute_task_graph_loop]
  by_cases hp : st.pending_tasks = []
  · rw [dif_pos hp]
  · rw [dif_neg hp]
    split
    · rfl
    · rename_i t rest heq
      rw [hready] at heq
      exact absurd heq (by simp)

theorem loop_eq_round (delegate : AgentTask → Except String String)
    (cap : Nat) (st : LoopState) (t : AgentTask) (rest : List AgentTask)
    (hready : ready_tasks st.pending_tasks st.completed_tasks = t :: rest)
    (hcap : 0 < cap) :
    execute_task_graph_loop delegate cap st
      = execute_task_graph_loop delegate cap
          (run_batch delegate ((t :: rest).take (min (t :: rest).length cap)) st) := by
  have hp : st.pending_tasks ≠ [] := by
    intro h
    rw [ready_tasks, h] at hready
    exact absurd hready.symm (by simp)
  conv_lhs => rw [execute_task_graph_loop]
  rw [dif_neg hp]
  split
  · rename_i heq
    rw [hready] at heq
    exact absurd heq (by simp)
  · rename_i t' rest' heq
    rw [hready] at heq
    obtain ⟨rfl, rfl⟩ : t = t' ∧ rest = rest' := by
      have h1 := congrArg (List.head? (α := AgentTask)) heq
      have h2 := congrArg (List.tail (α := AgentTask)) heq
      simp only [List.head?_cons, Option.some.injEq, List.tail_cons] at h1 h2
      exact ⟨h1, h2⟩
    dsimp only
    split
    · rename_i htake
      have hmin : 0 < min (t :: rest).length cap :=
        lt_min (by simp) hcap
      rw [List.take_eq_nil_iff] at htake
      rcases htake with h | h
      · omega
      · exact absurd h (by simp)
    · rename_i b bs htake
      rw [htake]

/-- With `max_parallel_agents = 0` the source loops forever; the
embedding exits on the empty batch with the state unchanged. -/
theorem loop_eq_cap_zero (delegate : AgentTask → Except String String)
    (st : LoopState) {cap : Nat} (hcap : cap = 0) :
    execute_task_graph_loop delegate cap st = st := by
  subst hcap
  rw [execute_task_graph_loop]
  by_cases hp : st.pending_tasks = []
  · rw [dif_pos hp]
  · rw [dif_neg hp]
    split
    · rfl
    · dsimp only
      split
      · rfl
      · rename_i b bs htake
        simp at htake

/-! ### Loop-level invariants -/

theorem loop_pending_sublist (delegate : AgentTask → Except String String)
    (cap : Nat) :
    ∀ (n : Nat) (st : LoopState), st.pending_tasks.length ≤ n →
      List.Sublist (execute_task_graph_loop delegate cap st).pending_tasks
        st.pending_tasks := by
  intro n
  induction n with
  | zero =>
    intro st hlen
    have hp : st.pending_tasks = [] := List.length_eq_zero.mp (Nat.le_zero.mp hlen)
    rw [loop_eq_done delegate cap st hp]
  | succ n ih =>
    intro st hlen
    by_cases hp : st.pending_tasks = []
    · rw [loop_eq_done delegate cap st hp]
    · match hready : ready_tasks st.pending_tasks st.completed_tasks with
      | [] => rw [loop_eq_break delegate cap st hready]
      | t :: rest =>
        by_cases hcap : 0 < cap
        · obtain ⟨b, bs, hb⟩ :
              ∃ b bs, (t :: rest).take (min (t :: rest).length cap) = b :: bs := by
            cases htk : (t :: rest).take (min (t :: rest).length cap) with
            | nil =>
              rw [List.take_eq_nil_iff] at htk
              have hmin : 0 < min (t :: rest).length cap := lt_min (by simp) hcap
              rcases htk with h | h
              · omega
              · exact absurd h (by simp)
            | cons b bs => exact ⟨b, bs, rfl⟩
          rw [loop_eq_round delegate cap st t rest hready hcap, hb]
          have hbmem : b ∈ st.pending_tasks := by
            have hbr : b ∈ ready_tasks st.pending_tasks st.completed_tasks := by
              rw [hready]
              refine List.mem_of_mem_take (n := min (t :: rest).length cap) ?_
              rw [hb]
              exact List.mem_cons_self b bs
            exact List.mem_of_mem_filter hbr
          have hlt := run_batch_pending_length_lt delegate b bs st hbmem
          refine List.Sublist.trans (ih _ ?_) (run_batch_pending_sublist delegate _ _)
          omega
        · have hcap0 : cap = 0 := by omega
          rw [loop_eq_cap_zero delegate st hcap0]

/-- One round of the loop, packaged: when tasks are pending, some are
ready and the cap is positive, the loop admits the nonempty batch
`readySet[0 : min(len(readySet), cap)]`, runs it, and continues. -/
theorem loop_step_cases (delegate : AgentTask → Except String String)
    (cap : Nat) (st : LoopState) (hcap : 0 < cap)
    (hready : ready_tasks st.pending_tasks st.completed_tasks ≠ []) :
    ∃ b bs,
      b :: bs
        = (ready_tasks st.pending_tasks st.completed_tasks).take
            (min (ready_tasks st.pending_tasks st.completed_tasks).length cap)
      ∧ b ∈ st.pending_tasks
      ∧ (∀ u ∈ b :: bs, u ∈ ready_tasks st.pending_tasks st.completed_tasks)
      ∧ execute_task_graph_loop delegate cap st
          = execute_task_graph_loop delegate cap (run_batch delegate (b :: bs) st)
      ∧ (run_batch delegate (b :: bs) st).pending_tasks.length
          < st.pending_tasks.length := by
  match hr : ready_tasks st.pending_tasks st.completed_tasks, hready with
  | t :: rest, _ =>
    obtain ⟨b, bs, hb⟩ :
        ∃ b bs, (t :: rest).take (min (t :: rest).length cap) = b :: bs := by
      cases htk : (t :: rest).take (min (t :: rest).length cap) with
      | nil =>
        rw [List.take_eq_nil_iff] at htk
        have hmin : 0 < min (t :: rest).length cap := lt_min (by simp) hcap
        rcases htk with h | h
        · omega
        · exact absurd h (by simp)
      | cons b bs => exact ⟨b, bs, rfl⟩
    have hmemready : ∀ u ∈ b :: bs, u ∈ ready_tasks st.pending_tasks st.completed_tasks := by
      intro u hu
      rw [hr]
      refine List.mem_of_mem_take (n := min (t :: rest).length cap) ?_
      rw [hb]; exact hu
    have hbmem : b ∈ st.pending_tasks :=
      List.mem_of_mem_filter (hmemready b (List.mem_cons_self b bs))
    refine ⟨b, bs, hb.symm, hbmem, ?_, ?_, ?_⟩
    · intro u hu
      have h := hmemready u hu
      rwa [hr] at h
    · rw [loop_eq_round delegate cap st t rest hr hcap, hb]
    · exact run_batch_pending_length_lt delegate b bs st hbmem

/-! ### Acyclicity, progress, and the all-successful run -/

/-- Every dependency of a pending task is either already completed or
names a still-pending task.  This holds initially whenever the
dependency ids of the submitted specs resolve within the graph, and is
preserved by successful rounds. -/
def DepsClosed (pending_tasks : List AgentTask) (completed_tasks : List String) : Prop :=
  ∀ t ∈ pending_tasks, ∀ d ∈ t.dependencies,
    d ∈ completed_tasks ∨ d ∈ pending_tasks.map (·.task_id)

/-- `rank` is a topological ranking of the tasks: every dependency
strictly precedes its dependent.  A finite dependency graph admits such
a ranking exactly when it is acyclic; we take the ranking as the
explicit acyclicity witness. -/
def RankedBy (tasks : List AgentTask) (rank : String → Nat) : Prop :=
  ∀ t ∈ tasks, ∀ d ∈ t.dependencies, rank d < rank t.task_id

theorem RankedBy.sublist {l₁ l₂ : List AgentTask} {rank : String → Nat}
    (hs : List.Sublist l₁ l₂) (h : RankedBy l₂ rank) : RankedBy l₁ rank :=
  fun t ht => h t (List.Sublist.mem ht hs)

theorem exists_rank_min (f : String → Nat) :
    ∀ l : List AgentTask, l ≠ [] →
      ∃ m ∈ l, ∀ x ∈ l, f m.task_id ≤ f x.task_id := by
  intro l
  induction l with
  | nil => intro h; exact absurd rfl h
  | cons t rest ih =>
    intro _
    by_cases hrest : rest = []
    · subst hrest
      refine ⟨t, List.mem_cons_self t [], ?_⟩
      intro x hx
      rcases List.mem_cons.mp hx with rfl | hx
      · exact Nat.le_refl _
      · exact absurd hx (List.not_mem_nil x)
    · obtain ⟨m, hm, hmin⟩ := ih hrest
      by_cases hc : f t.task_id ≤ f m.task_id
      · refine ⟨t, List.mem_cons_self t rest, ?_⟩
        intro x hx
        rcases List.mem_cons.mp hx with rfl | hx
        · exact Nat.le_refl _
        · exact Nat.le_trans hc (hmin x hx)
      · refine ⟨m, List.mem_cons_of_mem t hm, ?_⟩
        intro x hx
        rcases List.mem_cons.mp hx with rfl | hx
        · omega
        · exact hmin x hx

/-- Progress: under an acyclic, dependency-closed pending set, the ready
set of a nonempty pending set is nonempty (a rank-minimal pending task
has all its dependencies completed). -/
theorem ready_tasks_ne_nil (pending_tasks : List AgentTask)
    (completed_tasks : List String) (rank : String → Nat)
    (hne : pending_tasks ≠ [])
    (hclosed : DepsClosed pending_tasks completed_tasks)
    (hrank : RankedBy pending_tasks rank) :
    ready_tasks pending_tasks completed_tasks ≠ [] := by
  obtain ⟨m, hm, hmin⟩ := exists_rank_min rank pending_tasks hne
  have hdeps : ∀ d ∈ m.dependencies, d ∈ completed_tasks := by
    intro d hd
    rcases hclosed m hm d hd with hc | hp
    · exact hc
    · obtain ⟨u, hu, huid⟩ := List.mem_map.mp hp
      have h1 : rank d < rank m.task_id := hrank m hm d hd
      have h2 : rank m.task_id ≤ rank u.task_id := hmin u hu
      rw [huid] at h2
      omega
  have : m ∈ ready_tasks pending_tasks completed_tasks := by
    rw [ready_tasks]
    refine List.mem_filter.mpr ⟨hm, ?_⟩
    rw [List.all_eq_true]
    intro d hd
    simpa [List.contains, List.elem_iff] using hdeps d hd
  exact List.ne_nil_of_mem this

theorem run_batch_mem_or_completed (delegate : AgentTask → Except String String)
    (hok : ∀ u, outcome_ok (delegate u) = true) :
    ∀ (batch : List AgentTask) (st : LoopState) (x : AgentTask),
      x ∈ st.pending_tasks →
      x ∈ (run_batch delegate batch st).pending_tasks
        ∨ x.task_id ∈ (run_batch delegate batch st).completed_tasks := by
  intro batch
  induction batch with
  | nil => intro st x hx; exact .inl hx
  | cons t rest ih =>
    intro st x hx
    have hokt := hok t
    cases hdel : delegate t with
    | error e => rw [hdel] at hokt; simp [outcome_ok] at hokt
    | ok r =>
      by_cases hxid : (x.task_id == t.task_id) = true
      · right
        have hxt : x.task_id = t.task_id := by simpa using hxid
        have hmem : x.task_id ∈ (st.completed_tasks ++ [t.task_id]) := by
          rw [hxt]; exact List.mem_append_right _ (List.mem_cons_self _ _)
        have := run_batch_completed_mono delegate rest
          { results := st.results ++ [(t.task_id,
              ⟨(record_outcome t (delegate t)).status.value,
               (record_outcome t (delegate t)).result,
               (record_outcome t (delegate t)).error⟩)]
            completed_tasks := match delegate t with
              | .ok _ => st.completed_tasks ++ [t.task_id]
              | .error _ => st.completed_tasks
            finished := st.finished ++ [record_outcome t (delegate t)]
            pending_tasks := remove_task st.pending_tasks t.task_id }
          x.task_id (by rw [hdel]; exact hmem)
        simpa [run_batch, record_outcome] using this
      · have hx' : x ∈ remove_task st.pending_tasks t.task_id :=
          (List.mem_eraseP_of_neg (by simpa using hxid)).mpr hx
        have := ih
          { results := st.results ++ [(t.task_id,
              ⟨(record_outcome t (delegate t)).status.value,
               (record_outcome t (delegate t)).result,
               (record_outcome t (delegate t)).error⟩)]
            completed_tasks := match delegate t with
              | .ok _ => st.completed_tasks ++ [t.task_id]
              | .error _ => st.completed_tasks
            finished := st.finished ++ [record_outcome t (delegate t)]
            pending_tasks := remove_task st.pending_tasks t.task_id }
          x hx'
        rcases this with h | h
        · left; simpa [run_batch, record_outcome] using h
        · right; simpa [run_batch, record_outcome] using h

theorem run_batch_depsClosed (delegate : AgentTask → Except String String)
    (hok : ∀ u, outcome_ok (delegate u) = true)
    (batch : List AgentTask) (st : LoopState)
    (h : DepsClosed st.pending_tasks st.completed_tasks) :
    DepsClosed (run_batch delegate batch st).pending_tasks
      (run_batch delegate batch st).completed_tasks := by
  intro t ht dep hdep
  have ht0 : t ∈ st.pending_tasks :=
    List.Sublist.mem ht (run_batch_pending_sublist delegate batch st)
  rcases h t ht0 dep hdep with hc | hp
  · exact .inl (run_batch_completed_mono delegate batch st dep hc)
  · obtain ⟨u, hu, huid⟩ := List.mem_map.mp hp
    rcases run_batch_mem_or_completed delegate hok batch st u hu with h1 | h1
    · right; rw [← huid]; exact List.mem_map_of_mem _ h1
    · left; rw [← huid]; exact h1

/-- The record written for a successfully dispatched task is `completed`;
for a raising dispatch it is `failed`; either way it is terminal, the id
is preserved and `completed_at` is stamped. -/
theorem record_outcome_status (t : AgentTask) (outcome : Except String String) :
    (record_outcome t outcome).task_id = t.task_id
    ∧ (record_outcome t outcome).completed_at = true
    ∧ ((outcome_ok outcome = true ∧ (record_outcome t outcome).status = .completed)
       ∨ (outcome_ok outcome = false ∧ (record_outcome t outcome).status = .failed)) := by
  cases outcome with
  | ok r => exact ⟨rfl, rfl, .inl ⟨rfl, rfl⟩⟩
  | error e => exact ⟨rfl, rfl, .inr ⟨rfl, rfl⟩⟩

theorem run_batch_completed_finished (delegate : AgentTask → Except String String)
    (batch : List AgentTask) (st : LoopState) :
    ∀ id ∈ (run_batch delegate batch st).completed_tasks,
      id ∈ st.completed_tasks
      ∨ ∃ t' ∈ (run_batch delegate batch st).finished,
          t'.task_id = id ∧ t'.status = .completed := by
  intro id hid
  rw [run_batch_completed] at hid
  rcases List.mem_append.mp hid with h | h
  · exact .inl h
  · right
    obtain ⟨u, hu, huid⟩ := List.mem_map.mp h
    have hu' := List.mem_filter.mp hu
    refine ⟨record_outcome u (delegate u), ?_, ?_, ?_⟩
    · rw [run_batch_finished]
      exact List.mem_append_right _ (List.mem_map_of_mem _ hu'.1)
    · rw [(record_outcome_status u (delegate u)).1, huid]
    · rcases (record_outcome_status u (delegate u)).2.2 with ⟨_, hs⟩ | ⟨hko, _⟩
      · exact hs
      · rw [hu'.2] at hko; simp at hko

/-- Round induction: any relation that holds reflexively and is stable
under prepending one admitted round relates every loop state to the
loop's final state. -/
theorem loop_rounds_ind (delegate : AgentTask → Except String String) (cap : Nat)
    (R : LoopState → LoopState → Prop)
    (hrefl : ∀ st, R st st)
    (hstep : ∀ st b bs, b ∈ st.pending_tasks →
      (∀ u ∈ b :: bs, u ∈ ready_tasks st.pending_tasks st.completed_tasks) →
      ∀ X, R (run_batch delegate (b :: bs) st) X → R st X) :
    ∀ st, R st (execute_task_graph_loop delegate cap st) := by
  have main : ∀ n st, st.pending_tasks.length ≤ n →
      R st (execute_task_graph_loop delegate cap st) := by
    intro n
    induction n with
    | zero =>
      intro st hlen
      have hp : st.pending_tasks = [] := List.length_eq_zero.mp (Nat.le_zero.mp hlen)
      rw [loop_eq_done delegate cap st hp]
      exact hrefl st
    | succ n ih =>
      intro st hlen
      by_cases hp : st.pending_tasks = []
      · rw [loop_eq_done delegate cap st hp]; exact hrefl st
      · by_cases hcap : 0 < cap
        · by_cases hready : ready_tasks st.pending_tasks st.completed_tasks = []
          · rw [loop_eq_break delegate cap st hready]; exact hrefl st
          · obtain ⟨b, bs, _, hbmem, hmemr, heq, hlt⟩ :=
              loop_step_cases delegate cap st hcap hready
            rw [heq]
            exact hstep st b bs hbmem hmemr _ (ih _ (by omega))
        · rw [loop_eq_cap_zero delegate st (by omega)]; exact hrefl st
  exact fun st => main st.pending_tasks.length st (Nat.le_refl _)

theorem loop_finished_mono (delegate : AgentTask → Except String String)
    (cap : Nat) (st : LoopState) :
    ∀ x ∈ st.finished, x ∈ (execute_task_graph_loop delegate cap st).finished := by
  refine loop_rounds_ind delegate cap
    (fun s X => ∀ x ∈ s.finished, x ∈ X.finished) (fun s x hx => hx) ?_ st
  intro s b bs _ _ X hR x hx
  refine hR x ?_
  rw [run_batch_finished]
  exact List.mem_append_left _ hx

theorem loop_completed_mono (delegate : AgentTask → Except String String)
    (cap : Nat) (st : LoopState) :
    ∀ x ∈ st.completed_tasks,
      x ∈ (execute_task_graph_loop delegate cap st).completed_tasks := by
  refine loop_rounds_ind delegate cap
    (fun s X => ∀ x ∈ s.completed_tasks, x ∈ X.completed_tasks) (fun s x hx => hx) ?_ st
  intro s b bs _ _ X hR x hx
  exact hR x (run_batch_completed_mono delegate (b :: bs) s x hx)

/-- Every task record the loop adds to `finished` is terminal: its
status is `completed` or `failed`. -/
theorem loop_finished_terminal (delegate : AgentTask → Except String String)
    (cap : Nat) (st : LoopState) :
    ∀ x ∈ (execute_task_graph_loop delegate cap st).finished,
      x ∈ st.finished ∨ x.status = .completed ∨ x.status = .failed := by
  refine loop_rounds_ind delegate cap
    (fun s X => ∀ x ∈ X.finished,
      x ∈ s.finished ∨ x.status = .completed ∨ x.status = .failed)
    (fun s x hx => .inl hx) ?_ st
  intro s b bs _ _ X hR x hx
  rcases hR x hx with hfin | hterm
  · rw [run_batch_finished] at hfin
    rcases List.mem_append.mp hfin with h | h
    · exact .inl h
    · obtain ⟨u, _, hux⟩ := List.mem_map.mp h
      right
      rcases (record_outcome_status u (delegate u)).2.2 with ⟨_, hs⟩ | ⟨_, hs⟩
      · exact .inl (by rw [← hux]; exact hs)
      · exact .inr (by rw [← hux]; exact hs)
  · exact .inr hterm

/-- Every id the loop adds to `completed_tasks` corresponds to a
`finished` record with that id and status `completed`. -/
theorem loop_completed_has_record (delegate : AgentTask → Except String String)
    (cap : Nat) (st : LoopState) :
    ∀ id ∈ (execute_task_graph_loop delegate cap st).completed_tasks,
      id ∈ st.completed_tasks
      ∨ ∃ t' ∈ (execute_task_graph_loop delegate cap st).finished,
          t'.task_id = id ∧ t'.status = .completed := by
  have := loop_rounds_ind delegate cap
    (fun s X => (∀ x ∈ s.finished, x ∈ X.finished)
      ∧ ∀ id ∈ X.completed_tasks,
          id ∈ s.completed_tasks
          ∨ ∃ t' ∈ X.finished, t'.task_id = id ∧ t'.status = .completed)
    (fun s => ⟨fun x hx => hx, fun id hid => .inl hid⟩) ?_ st
  · exact this.2
  · intro s b bs _ _ X hR
    constructor
    · intro x hx
      refine hR.1 x ?_
      rw [run_batch_finished]
      exact List.mem_append_left _ hx
    · intro id hid
      rcases hR.2 id hid with h₁ | h₁
      · rcases run_batch_completed_finished delegate (b :: bs) s id h₁ with h₂ | h₂
        · exact .inl h₂
        · obtain ⟨t', ht', hrest⟩ := h₂
          exact .inr ⟨t', hR.1 t' ht', hrest⟩
      · exact .inr h₁

/-- With a delegate that always succeeds, every initially pending task
is either still pending at the end or its id has been marked completed. -/
theorem loop_mem_or_completed (delegate : AgentTask → Except String String)
    (hok : ∀ u, outcome_ok (delegate u) = true) (cap : Nat) (st : LoopState) :
    ∀ x ∈ st.pending_tasks,
      x ∈ (execute_task_graph_loop delegate cap st).pending_tasks
      ∨ x.task_id ∈ (execute_task_graph_loop delegate cap st).completed_tasks := by
  have := loop_rounds_ind delegate cap
    (fun s X => (∀ id ∈ s.completed_tasks, id ∈ X.completed_tasks)
      ∧ ∀ x ∈ s.pending_tasks,
          x ∈ X.pending_tasks ∨ x.task_id ∈ X.completed_tasks)
    (fun s => ⟨fun id hid => hid, fun x hx => .inl hx⟩) ?_ st
  · exact this.2
  · intro s b bs _ _ X hR
    constructor
    · intro id hid
      exact hR.1 id (run_batch_completed_mono delegate (b :: bs) s id hid)
    · intro x hx
      rcases run_batch_mem_or_completed delegate hok (b :: bs) s x hx with h | h
      · exact hR.2 x h
      · exact .inr (hR.1 _ h)

/-- A result-map entry is never keyed by the id of a task still in
`pending_tasks`, provided pending ids are duplicate-free initially and
the invariant held initially (e.g. `results = {}`). -/
theorem loop_results_pending_disjoint (delegate : AgentTask → Except String String)
    (cap : Nat) (st : LoopState)
    (hnodup : (st.pending_tasks.map (·.task_id)).Nodup)
    (hdisj : ∀ p ∈ st.results, ∀ t ∈ st.pending_tasks, t.task_id ≠ p.1) :
    ∀ p ∈ (execute_task_graph_loop delegate cap st).results,
      ∀ t ∈ (execute_task_graph_loop delegate cap st).pending_tasks,
        t.task_id ≠ p.1 := by
  have := loop_rounds_ind delegate cap
    (fun s X => (s.pending_tasks.map (·.task_id)).Nodup →
      (∀ p ∈ s.results, ∀ t ∈ s.pending_tasks, t.task_id ≠ p.1) →
      ∀ p ∈ X.results, ∀ t ∈ X.pending_tasks, t.task_id ≠ p.1)
    (fun s hn hd => hd) ?_ st
  · exact this hnodup hdisj
  · intro s b bs _ _ X hR hn hd
    refine hR ?_ ?_
    · exact List.Nodup.sublist
        (List.Sublist.map _ (run_batch_pending_sublist delegate (b :: bs) s)) hn
    · intro p hp t ht
      rw [run_batch_results] at hp
      rcases List.mem_append.mp hp with h | h
      · exact hd p h t
          (List.Sublist.mem ht (run_batch_pending_sublist delegate (b :: bs) s))
      · obtain ⟨u, hu, hup⟩ := List.mem_map.mp h
        have hkey : p.1 = u.task_id := by rw [← hup]; rfl
        rw [hkey]
        exact run_batch_pending_id_removed delegate (b :: bs) s u hn hu t ht

/-- With a positive cap, an always-successful delegate, dependency ids
resolving within the graph, and an acyclic dependency graph (witnessed by
a topological ranking), the loop drains `pending_tasks` completely: the
deadlock `break` is never taken. -/
theorem loop_allok_pending_nil (delegate : AgentTask → Except String String)
    (cap : Nat) (rank : String → Nat)
    (hok : ∀ u, outcome_ok (delegate u) = true) (hcap : 0 < cap) :
    ∀ (n : Nat) (st : LoopState), st.pending_tasks.length ≤ n →
      DepsClosed st.pending_tasks st.completed_tasks →
      RankedBy st.pending_tasks rank →
      (execute_task_graph_loop delegate cap st).pending_tasks = [] := by
  intro n
  induction n with
  | zero =>
    intro st hlen _ _
    have hp : st.pending_tasks = [] := List.length_eq_zero.mp (Nat.le_zero.mp hlen)
    rw [loop_eq_done delegate cap st hp]
    exact hp
  | succ n ih =>
    intro st hlen hclosed hrank
    by_cases hp : st.pending_tasks = []
    · rw [loop_eq_done delegate cap st hp]; exact hp
    · have hready : ready_tasks st.pending_tasks st.completed_tasks ≠ [] :=
        ready_tasks_ne_nil st.pending_tasks st.completed_tasks rank hp hclosed hrank
      obtain ⟨b, bs, _, hbmem, hmemr, heq, hlt⟩ :=
        loop_step_cases delegate cap st hcap hready
      rw [heq]
      refine ih _ (by omega) ?_ ?_
      · exact run_batch_depsClosed delegate hok (b :: bs) st hclosed
      · exact RankedBy.sublist (run_batch_pending_sublist delegate (b :: bs) st) hrank

/-! ### Characterization of `_create_task_graph` -/

theorem mkTaskId_inj (sid : String) (a b : Nat)
    (h : mkTaskId a sid = mkTaskId b sid) : a = b := by
  have hdata := congrArg String.data h
  simp only [mkTaskId, String.data_append] at hdata
  rw [List.append_assoc _ "_".data sid.data,
    List.append_assoc _ "_".data sid.data] at hdata
  have h1 := List.append_cancel_right hdata
  have h2 := List.append_cancel_left h1
  exact natRepr_injective a b (String.ext h2)

/-- An unknown role value anywhere in the batch makes graph
construction fail: the `ValueError` raised by `AgentRole(...)`
propagates, and no task list is returned at all. -/
theorem create_task_graph_from_error (sid : String) :
    ∀ (specs : List SubtaskSpec) (i : Nat) (s : SubtaskSpec), s ∈ specs →
      agentRoleOfValue (s.role.getD "executor") = none →
      ∃ msg, create_task_graph_from sid i specs = .error msg := by
  intro specs
  induction specs with
  | nil => intro i s hs; exact absurd hs (List.not_mem_nil s)
  | cons s₀ rest ih =>
    intro i s hs hrole
    rcases List.mem_cons.mp hs with rfl | hs'
    · refine ⟨"ValueError: " ++ s.role.getD "executor" ++ " is not a valid AgentRole", ?_⟩
      rw [create_task_graph_from, hrole]
    · cases h₀ : agentRoleOfValue (s₀.role.getD "executor") with
      | none =>
        refine ⟨"ValueError: " ++ s₀.role.getD "executor" ++ " is not a valid AgentRole", ?_⟩
        rw [create_task_graph_from, h₀]
      | some r =>
        obtain ⟨msg, hmsg⟩ := ih (i + 1) s hs' hrole
        refine ⟨msg, ?_⟩
        rw [create_task_graph_from, h₀, hmsg]
        rfl

/-- When every role resolves, graph construction succeeds and returns
the tasks in submission order with deterministic ids
`task_{i}_{session_id}`, fields copied from the specs, status `pending`,
and no result/error/timestamps. -/
theorem create_task_graph_from_ok (sid : String) :
    ∀ (specs : List SubtaskSpec) (i : Nat),
      (∀ s ∈ specs, ∃ r, agentRoleOfValue (s.role.getD "executor") = some r) →
      ∃ ts, create_task_graph_from sid i specs = .ok ts
        ∧ ts.length = specs.length
        ∧ (∀ (k : Nat) (hk : k < ts.length) (hk' : k < specs.length),
            ∃ r, agentRoleOfValue (((specs.get ⟨k, hk'⟩).role).getD "executor") = some r
              ∧ ts.get ⟨k, hk⟩ =
                  { task_id := mkTaskId (i + k) sid
                    role := r
                    description := (specs.get ⟨k, hk'⟩).description
                    dependencies := ((specs.get ⟨k, hk'⟩).dependencies).getD [] }) := by
  intro specs
  induction specs with
  | nil =>
    intro i _
    exact ⟨[], rfl, rfl, fun k hk _ => absurd hk (by simp)⟩
  | cons s₀ rest ih =>
    intro i hall
    obtain ⟨r₀, hr₀⟩ := hall s₀ (List.mem_cons_self s₀ rest)
    obtain ⟨ts, hts, hlen, helem⟩ :=
      ih (i + 1) (fun s hs => hall s (List.mem_cons_of_mem s₀ hs))
    refine ⟨{ task_id := mkTaskId i sid
              role := r₀
              description := s₀.description
              dependencies := s₀.dependencies.getD [] } :: ts, ?_, ?_, ?_⟩
    · rw [create_task_graph_from, hr₀, hts]
      rfl
    · simp [hlen]
    · intro k hk hk'
      match k with
      | 0 => exact ⟨r₀, hr₀, by simp⟩
      | k + 1 =>
        obtain ⟨r, hr, hget⟩ := helem k (by simpa using hk) (by simpa using hk')
        refine ⟨r, hr, ?_⟩
        simpa [Nat.add_assoc, Nat.add_comm 1 k] using hget

/-- The generated ids, in order. -/
theorem create_task_graph_from_ids (sid : String) :
    ∀ (specs : List SubtaskSpec) (i : Nat) (ts : List AgentTask),
      create_task_graph_from sid i specs = .ok ts →
      ts.map (·.task_id) = (List.range specs.length).map fun k => mkTaskId (i + k) sid := by
  intro specs
  induction specs with
  | nil =>
    intro i ts h
    cases h
    rfl
  | cons s₀ rest ih =>
    intro i ts h
    rw [create_task_graph_from] at h
    cases h₀ : agentRoleOfValue (s₀.role.getD "executor") with
    | none => rw [h₀] at h; cases h
    | some r =>
      rw [h₀] at h
      cases hrest : create_task_graph_from sid (i + 1) rest with
      | error e => rw [hrest] at h; cases h
      | ok ts' =>
        rw [hrest] at h
        cases h
        have := ih (i + 1) ts' hrest
        simp only [List.map_cons, this, List.length_cons, List.range_succ_eq_map,
          List.map_map]
        refine congrArg (mkTaskId i sid :: ·) ?_
        · refine List.map_congr_left ?_
          intro k _
          simp [Function.comp, Nat.add_assoc, Nat.add_comm 1 k]

/-- The generated ids are pairwise distinct. -/
theorem create_task_graph_ids_nodup (sid : String) (specs : List SubtaskSpec)
    (ts : List AgentTask) (h : create_task_graph sid specs = .ok ts) :
    (ts.map (·.task_id)).Nodup := by
  rw [create_task_graph] at h
  rw [create_task_graph_from_ids sid specs 0 ts h]
  refine List.Nodup.map ?_ (List.nodup_range _)
  intro a b hab
  have := mkTaskId_inj sid (0 + a) (0 + b) hab
  omega

/-! ### Concrete example data -/

/-- A subtask spec with a recognized role and no dependencies. -/
def exSpecA : SubtaskSpec := { role := some "researcher", description := "a" }

/-- A subtask spec naming a role outside the `AgentRole` enum. -/
def badRoleSpec : SubtaskSpec := { role := some "wizard", description := "w" }

/-- A subtask spec whose dependency id matches no generated task id. -/
def badDepSpec : SubtaskSpec :=
  { role := some "executor", description := "x", dependencies := some ["nonexistent_id"] }

/-- The task `_create_task_graph "s"` builds from `exSpecA` at index 0. -/
def exTaskA : AgentTask :=
  { task_id := "task_0_s", role := .researcher, description := "a" }

/-- A task depending on `exTaskA`. -/
def exTaskB : AgentTask :=
  { task_id := "task_1_s", role := .analyst, description := "b"
    dependencies := ["task_0_s"] }

/-- Two mutually dependent tasks (a dependency cycle). -/
def cycTaskA : AgentTask :=
  { task_id := "task_0_s", role := .executor, description := "a"
    dependencies := ["task_1_s"] }

def cycTaskB : AgentTask :=
  { task_id := "task_1_s", role := .executor, description := "b"
    dependencies := ["task_0_s"] }

/-- A dependency-free task externally marked `cancelled` while pending. -/
def cancTask : AgentTask :=
  { task_id := "task_0_s", role := .executor, description := "c"
    status := .cancelled }

/-- A delegate that raises on `task_0_s` and succeeds elsewhere. -/
def failing_delegate (t : AgentTask) : Except String String :=
  if t.task_id = "task_0_s" then .error "boom" else .ok "done"

/-- A topological ranking for the `exTaskA`/`exTaskB` chain. -/
def exRank (s : String) : Nat := if s = "task_0_s" then 0 else 1

/-! ### Claim theorems: the sandboxed executor -/

/-- C6 (counterexample): a failure to spawn the child process
(`subprocess.Popen` raising) is caught by the blanket handler of
`_execute_with_limits` and returned as a non-succeeding
`ExecutionResult` — it is not propagated to the caller as the claim
states. -/
theorem spawn_failure_not_propagated :
    execute 300 ⟨.created "/tmp/code.py", .raises "[Errno 2] No such file or directory"⟩
      = (.ok ⟨false, "", "[Errno 2] No such file or directory", -1, 0⟩, []) := by
  rfl

/-- C6 (amended): only a failure to create/write the temporary artifact
propagates out of `execute()`; a spawn failure is caught and encoded as
a `succeeded = false`, `exit_code = -1` outcome with the error text in
`stderr`; the expected failure modes (non-zero exit, timeout) never
throw. -/
theorem sandbox_error_paths (timeout_seconds : Nat) (msg path : String) :
    (∀ sp : SpawnBehavior, (execute timeout_seconds ⟨.createRaises msg, sp⟩).1 = .error msg)
    ∧ (execute timeout_seconds ⟨.created path, .raises msg⟩).1
        = .ok ⟨false, "", msg, -1, 0⟩
    ∧ (∀ (rc : Int) (out err : String),
        (execute timeout_seconds ⟨.created path, .completes rc out err⟩).1
          = .ok ⟨rc == 0, out, err, rc, 0⟩)
    ∧ (∀ po pe : String,
        (execute timeout_seconds ⟨.created path, .timesOut po pe⟩).1
          = .ok ⟨false, "", timeout_message timeout_seconds, -1, 0⟩) :=
  ⟨fun _ => rfl, rfl, fun _ _ _ => rfl, fun _ _ => rfl⟩

/-- C7: on timeout the child is killed and the outcome has
`succeeded = false`, `exit_code = -1`, the timeout diagnostic in
`stderr`, and empty `stdout`/`stderr` capture — the partial output
`po`/`pe` drained before the kill does not appear in the outcome, and
no exception escapes (the result is always `.ok`). -/
theorem timeout_outcome_shape (timeout_seconds : Nat) (path po pe : String) :
    execute_with_limits timeout_seconds (.timesOut po pe)
      = ⟨false, "", timeout_message timeout_seconds, -1, 0⟩
    ∧ (execute timeout_seconds ⟨.created path, .timesOut po pe⟩).1
        = .ok ⟨false, "", timeout_message timeout_seconds, -1, 0⟩ :=
  ⟨rfl, rfl⟩

/-- C8 (counterexample): when the temp file is created but writing the
wrapped program into it fails, the exception propagates out of
`execute()` with the artifact still on disk — the `with` block of
lines 66–72 precedes the `try/finally`, so the cleanup never runs on
this path. -/
theorem write_failure_leaks_artifact :
    execute 300 ⟨.createdWriteRaises "/tmp/code.py" "[Errno 28] No space left on device",
        .completes 0 "" ""⟩
      = (.error "[Errno 28] No space left on device", ["/tmp/code.py"]) :=
  rfl

/-- C8 (amended): on every exit path reached once the artifact has been
written — success, failure, or an exception during launch — the
artifact is deleted before `execute()` returns, and a creation failure
leaves nothing behind; but if the write into the already-created file
raises, the exception propagates and the artifact remains on disk. -/
theorem temp_artifact_deleted_after_write (timeout_seconds : Nat)
    (path msg : String) (sp : SpawnBehavior) :
    (execute timeout_seconds ⟨.created path, sp⟩).2 = []
    ∧ (execute timeout_seconds ⟨.createRaises msg, sp⟩).2 = []
    ∧ execute timeout_seconds ⟨.createdWriteRaises path msg, sp⟩ = (.error msg, [path]) := by
  refine ⟨?_, rfl, rfl⟩
  simp [execute]

/-! ### Claim theorems: the scheduler -/

/-- C4: the readiness computation returns exactly the pending tasks all
of whose dependency ids are completed, preserving submission order (it
is a sublist of `pending`, hence ordered and duplicate-free relative to
it); being a pure function of its two arguments it has no side effects;
and every round of the loop admits exactly the first
`min(len(readySet), cap)` ready tasks. -/
theorem ready_set_and_batch_selection (p : List AgentTask) (c : List String) :
    (∀ t, t ∈ ready_tasks p c ↔ t ∈ p ∧ ∀ d ∈ t.dependencies, d ∈ c)
    ∧ List.Sublist (ready_tasks p c) p
    ∧ (∀ (delegate : AgentTask → Except String String) (cap : Nat) (st : LoopState),
        0 < cap → st.pending_tasks = p → st.completed_tasks = c →
        ready_tasks p c ≠ [] →
        execute_task_graph_loop delegate cap st
          = execute_task_graph_loop delegate cap
              (run_batch delegate
                ((ready_tasks p c).take (min (ready_tasks p c).length cap)) st)) := by
  refine ⟨?_, ?_, ?_⟩
  · intro t
    simp [ready_tasks, List.mem_filter, List.all_eq_true, List.contains, List.elem_iff]
  · exact List.filter_sublist p
  · intro delegate cap st hcap hp hc hne
    subst hp; subst hc
    obtain ⟨b, bs, hb, _, _, heq, _⟩ := loop_step_cases delegate cap st hcap hne
    rw [heq, hb]

theorem ready_set_and_batch_selection_witness :
    execute_task_graph_loop mock_delegate 5 ⟨[], [], [], [exTaskA, exTaskB]⟩
      = execute_task_graph_loop mock_delegate 5
          (run_batch mock_delegate
            ((ready_tasks [exTaskA, exTaskB] []).take
              (min (ready_tasks [exTaskA, exTaskB] []).length 5))
            ⟨[], [], [], [exTaskA, exTaskB]⟩) :=
  (ready_set_and_batch_selection [exTaskA, exTaskB] []).2.2 mock_delegate 5
    ⟨[], [], [], [exTaskA, exTaskB]⟩ (by decide) rfl rfl (by decide)

/-- C5: for each dispatched task of a batch — its batch processed to the
end regardless of individual failures — a raising dispatch yields status
`failed` with the error recorded and the id kept out of
`completed_tasks`; a successful one yields status `completed` with the
result recorded and the id appended to `completed_tasks`; in both cases
`completed_at` is stamped, a `results` entry is written, and the task is
removed from `pending_tasks`. -/
theorem dispatch_outcome_recording (delegate : AgentTask → Except String String)
    (batch : List AgentTask) (st : LoopState) (t : AgentTask)
    (hmem : t ∈ batch)
    (hids : (batch.map (·.task_id)).Nodup)
    (hpend : (st.pending_tasks.map (·.task_id)).Nodup)
    (hnc : t.task_id ∉ st.completed_tasks) :
    (run_batch delegate batch st).finished
      = st.finished ++ batch.map (fun u => record_outcome u (delegate u))
    ∧ outcome_entry delegate t ∈ (run_batch delegate batch st).results
    ∧ (∀ e, delegate t = .error e →
        (record_outcome t (delegate t)).status = .failed
        ∧ (record_outcome t (delegate t)).error = some e
        ∧ t.task_id ∉ (run_batch delegate batch st).completed_tasks)
    ∧ (∀ r, delegate t = .ok r →
        (record_outcome t (delegate t)).status = .completed
        ∧ (record_outcome t (delegate t)).result = some r
        ∧ t.task_id ∈ (run_batch delegate batch st).completed_tasks)
    ∧ (record_outcome t (delegate t)).completed_at = true
    ∧ ∀ u ∈ (run_batch delegate batch st).pending_tasks, u.task_id ≠ t.task_id := by
  refine ⟨run_batch_finished delegate batch st, ?_, ?_, ?_,
    (record_outcome_status t (delegate t)).2.1,
    run_batch_pending_id_removed delegate batch st t hpend hmem⟩
  · rw [run_batch_results]
    exact List.mem_append_right _ (List.mem_map_of_mem _ hmem)
  · intro e he
    refine ⟨by rw [he]; rfl, by rw [he]; rfl, ?_⟩
    rw [run_batch_completed]
    intro hmem'
    rcases List.mem_append.mp hmem' with h | h
    · exact hnc h
    · obtain ⟨u, hu, huid⟩ := List.mem_map.mp h
      have hu' := List.mem_filter.mp hu
      have : u = t := List.inj_on_of_nodup_map hids hu'.1 hmem huid
      rw [this, he] at hu'
      simp [outcome_ok] at hu'
  · intro r hr
    refine ⟨by rw [hr]; rfl, by rw [hr]; rfl, ?_⟩
    rw [run_batch_completed]
    refine List.mem_append_right _ (List.mem_map_of_mem _ ?_)
    exact List.mem_filter.mpr ⟨hmem, by rw [hr]; rfl⟩

theorem dispatch_outcome_recording_witness :
    outcome_entry mock_delegate exTaskA
      ∈ (run_batch mock_delegate [exTaskA] ⟨[], [], [], [exTaskA]⟩).results :=
  (dispatch_outcome_recording mock_delegate [exTaskA] ⟨[], [], [], [exTaskA]⟩ exTaskA
    (by decide) (by decide) (by decide) (by decide)).2.1

/-- C1 (counterexample): on the two-task cycle the loop exits with an
empty result map and both tasks still pending — the still-pending tasks
are not reported `failed` and get no diagnostic in the result, contrary
to the claim. -/
theorem deadlock_leaves_pending_unreported :
    (execute_task_graph mock_delegate 5 [cycTaskA, cycTaskB] []).results = []
    ∧ (execute_task_graph mock_delegate 5 [cycTaskA, cycTaskB] []).pending_tasks
        = [cycTaskA, cycTaskB]
    ∧ cycTaskA.status ≠ .failed ∧ cycTaskB.status ≠ .failed := by
  have h : execute_task_graph mock_delegate 5 [cycTaskA, cycTaskB] []
      = ⟨[], [], [], [cycTaskA, cycTaskB]⟩ :=
    loop_eq_break mock_delegate 5 ⟨[], [], [], [cycTaskA, cycTaskB]⟩ (by decide)
  rw [h]
  exact ⟨rfl, rfl, by decide, by decide⟩

/-- C1 (amended): when the ready set is empty while tasks remain
pending, the loop terminates at once with the state unchanged —
already-completed results are preserved, but the still-pending tasks
are left `pending`, receive no `failed` marking and no entry in the
result map (the deadlock is only logged). -/
theorem deadlock_terminates_results_preserved
    (delegate : AgentTask → Except String String) (cap : Nat) (st : LoopState)
    (hp : st.pending_tasks ≠ [])
    (hr : ready_tasks st.pending_tasks st.completed_tasks = []) :
    execute_task_graph_loop delegate cap st = st
    ∧ (execute_task_graph_loop delegate cap st).results = st.results
    ∧ (execute_task_graph_loop delegate cap st).pending_tasks = st.pending_tasks := by
  have h := loop_eq_break delegate cap st hr
  exact ⟨h, by rw [h], by rw [h]⟩

theorem deadlock_terminates_results_preserved_witness :
    execute_task_graph_loop mock_delegate 5 ⟨[], [], [], [cycTaskA, cycTaskB]⟩
      = ⟨[], [], [], [cycTaskA, cycTaskB]⟩ :=
  (deadlock_terminates_results_preserved mock_delegate 5
    ⟨[], [], [], [cycTaskA, cycTaskB]⟩ (by decide) (by decide)).1

/-- C9 (counterexample): a dependency-free task externally marked
`cancelled` while in `pending` is still returned by the readiness
computation and is admitted, dispatched, and even re-marked `completed`
by the loop — cancellation does not remove it from readiness
consideration. -/
theorem cancelled_task_still_scheduled :
    cancTask.status = .cancelled
    ∧ ready_tasks [cancTask] [] = [cancTask]
    ∧ (execute_task_graph mock_delegate 5 [cancTask] []).results
        = [("task_0_s", ⟨"completed", some "Task c completed by executor", none⟩)] := by
  refine ⟨rfl, by decide, ?_⟩
  have h1 : ready_tasks [cancTask] [] = cancTask :: [] := by decide
  have hround := loop_eq_round mock_delegate 5 ⟨[], [], [], [cancTask]⟩ cancTask [] h1
    (by decide)
  have h2 : run_batch mock_delegate
      ((cancTask :: []).take (min (cancTask :: []).length 5)) ⟨[], [], [], [cancTask]⟩
      = ⟨[("task_0_s", ⟨"completed", some "Task c completed by executor", none⟩)],
         ["task_0_s"],
         [{ task_id := "task_0_s", role := .executor, description := "c"
            status := .completed, result := some "Task c completed by executor"
            started_at := true, completed_at := true }],
         []⟩ := by decide
  show (execute_task_graph_loop mock_delegate 5 ⟨[], [], [], [cancTask]⟩).results = _
  rw [hround, h2, loop_eq_done mock_delegate 5 _ rfl]

/-- C9 (amended): readiness inspects only dependency completion, never
`status`: a pending-list head marked `cancelled` whose dependencies are
completed is in the ready set and heads the batch the loop runs next. -/
theorem readiness_ignores_status (delegate : AgentTask → Except String String)
    (cap : Nat) (st : LoopState) (t : AgentTask) (rest : List AgentTask)
    (hhead : st.pending_tasks = t :: rest)
    (hcanc : t.status = .cancelled)
    (hdeps : ∀ dep ∈ t.dependencies, dep ∈ st.completed_tasks)
    (hcap : 0 < cap) :
    t ∈ ready_tasks st.pending_tasks st.completed_tasks
    ∧ ∃ bs, t :: bs
          = (ready_tasks st.pending_tasks st.completed_tasks).take
              (min (ready_tasks st.pending_tasks st.completed_tasks).length cap)
        ∧ execute_task_graph_loop delegate cap st
            = execute_task_graph_loop delegate cap (run_batch delegate (t :: bs) st) := by
  have hpred : (t.dependencies.all fun dep => st.completed_tasks.contains dep) = true := by
    rw [List.all_eq_true]
    intro dep hdep
    simpa [List.contains, List.elem_iff] using hdeps dep hdep
  have hready_cons : ready_tasks st.pending_tasks st.completed_tasks
      = t :: ready_tasks rest st.completed_tasks := by
    rw [hhead]
    simp only [ready_tasks, List.filter_cons, hpred, if_true]
  refine ⟨by rw [hready_cons]; exact List.mem_cons_self _ _, ?_⟩
  obtain ⟨b, bs, hb, _, _, heq, _⟩ :=
    loop_step_cases delegate cap st hcap (by rw [hready_cons]; simp)
  obtain ⟨k, hk⟩ : ∃ k, min (ready_tasks st.pending_tasks st.completed_tasks).length cap
      = k + 1 := by
    have hlen : 0 < (ready_tasks st.pending_tasks st.completed_tasks).length := by
      rw [hready_cons]; simp
    have := lt_min hlen hcap
    exact ⟨min (ready_tasks st.pending_tasks st.completed_tasks).length cap - 1, by omega⟩
  rw [hk, hready_cons, List.take_succ_cons] at hb
  have hbt : b = t ∧ bs = (ready_tasks rest st.completed_tasks).take k := by
    have h1 := congrArg (List.head? (α := AgentTask)) hb
    have h2 := congrArg (List.tail (α := AgentTask)) hb
    simp only [List.head?_cons, Option.some.injEq, List.tail_cons] at h1 h2
    exact ⟨h1, h2⟩
  refine ⟨bs, ?_, ?_⟩
  · rw [hk, hready_cons, List.take_succ_cons, hbt.2]
  · rw [← hbt.1]; exact heq

theorem readiness_ignores_status_witness :
    cancTask ∈ ready_tasks [cancTask] [] :=
  (readiness_ignores_status mock_delegate 5 ⟨[], [], [], [cancTask]⟩ cancTask []
    rfl rfl (by decide) (by decide)).1

/-- With an always-successful delegate every record the loop appends to
`finished` carries status `completed`. -/
theorem loop_finished_completed (delegate : AgentTask → Except String String)
    (hok : ∀ u, outcome_ok (delegate u) = true) (cap : Nat) (st : LoopState) :
    ∀ x ∈ (execute_task_graph_loop delegate cap st).finished,
      x ∈ st.finished ∨ x.status = .completed := by
  refine loop_rounds_ind delegate cap
    (fun s X => ∀ x ∈ X.finished, x ∈ s.finished ∨ x.status = .completed)
    (fun s x hx => .inl hx) ?_ st
  intro s b bs _ _ X hR x hx
  rcases hR x hx with hfin | hcomp
  · rw [run_batch_finished] at hfin
    rcases List.mem_append.mp hfin with h | h
    · exact .inl h
    · obtain ⟨u, _, hux⟩ := List.mem_map.mp h
      rcases (record_outcome_status u (delegate u)).2.2 with ⟨_, hs⟩ | ⟨hko, _⟩
      · exact .inr (by rw [← hux]; exact hs)
      · rw [hok u] at hko; cases hko
  · exact .inr hcomp

/-- C3 (counterexample): on the acyclic, dependency-valid two-task chain
(`exTaskB` depends on `exTaskA`) under a delegate that fails `exTaskA`,
the loop exits with `exTaskB` still `pending` — not `completed` or
`failed` as the claim requires. -/
theorem failed_dependency_leaves_pending :
    DepsClosed [exTaskA, exTaskB] []
    ∧ RankedBy [exTaskA, exTaskB] exRank
    ∧ (execute_task_graph failing_delegate 5 [exTaskA, exTaskB] []).pending_tasks
        = [exTaskB]
    ∧ exTaskB.status = .pending := by
  refine ⟨by unfold DepsClosed; decide, by unfold RankedBy exRank; decide, ?_, rfl⟩
  have h1 : ready_tasks [exTaskA, exTaskB] [] = exTaskA :: [] := by decide
  have hround := loop_eq_round failing_delegate 5 ⟨[], [], [], [exTaskA, exTaskB]⟩
    exTaskA [] h1 (by decide)
  have h2 : run_batch failing_delegate
      ((exTaskA :: []).take (min (exTaskA :: []).length 5))
      ⟨[], [], [], [exTaskA, exTaskB]⟩
      = ⟨[("task_0_s", ⟨"failed", none, some "boom"⟩)],
         [],
         [{ task_id := "task_0_s", role := .researcher, description := "a"
            status := .failed, error := some "boom"
            started_at := true, completed_at := true }],
         [exTaskB]⟩ := by decide
  show (execute_task_graph_loop failing_delegate 5
    ⟨[], [], [], [exTaskA, exTaskB]⟩).pending_tasks = _
  rw [hround, h2, loop_eq_break failing_delegate 5 _ (by decide)]

/-- C3 (amended): for a valid acyclic task set the loop always
terminates (the embedded loop is a total function, by the strictly
decreasing pending count); when every dispatch succeeds the loop drains
`pending_tasks` completely and every task ends `completed` — but a task
whose dependency failed is left `pending` at exit (see the
counterexample), not marked `failed`; no task ever remains
`in_progress`. -/
theorem acyclic_all_success_completes (delegate : AgentTask → Except String String)
    (cap : Nat) (tasks : List AgentTask) (rank : String → Nat)
    (hcap : 0 < cap)
    (hok : ∀ u, outcome_ok (delegate u) = true)
    (hclosed : DepsClosed tasks [])
    (hrank : RankedBy tasks rank) :
    (execute_task_graph delegate cap tasks []).pending_tasks = []
    ∧ (∀ t ∈ (execute_task_graph delegate cap tasks []).finished, t.status = .completed)
    ∧ (∀ t ∈ tasks, ∃ t' ∈ (execute_task_graph delegate cap tasks []).finished,
        t'.task_id = t.task_id ∧ t'.status = .completed) := by
  have hnil : (execute_task_graph delegate cap tasks []).pending_tasks = [] :=
    loop_allok_pending_nil delegate cap rank hok hcap tasks.length
      ⟨[], [], [], tasks⟩ (Nat.le_refl _) hclosed hrank
  refine ⟨hnil, ?_, ?_⟩
  · intro t ht
    rcases loop_finished_completed delegate hok cap ⟨[], [], [], tasks⟩ t ht with h | h
    · exact absurd h (List.not_mem_nil t)
    · exact h
  · intro t ht
    rcases loop_mem_or_completed delegate hok cap ⟨[], [], [], tasks⟩ t ht with h | h
    · have h' : t ∈ (execute_task_graph delegate cap tasks []).pending_tasks := h
      rw [hnil] at h'
      exact absurd h' (List.not_mem_nil t)
    · rcases loop_completed_has_record delegate cap ⟨[], [], [], tasks⟩ t.task_id h
        with h' | h'
      · exact absurd h' (List.not_mem_nil _)
      · exact h'

theorem acyclic_all_success_completes_witness :
    (execute_task_graph mock_delegate 5 [exTaskA, exTaskB] []).pending_tasks = [] :=
  (acyclic_all_success_completes mock_delegate 5 [exTaskA, exTaskB] exRank
    (by decide) (fun u => rfl) (by unfold DepsClosed; decide)
    (by unfold RankedBy exRank; decide)).1

/-- C2 (counterexample): a spec whose dependency id matches no task id
generated in the same call is accepted without any validation error —
`_create_task_graph` returns a full graph carrying the dangling id. -/
theorem unresolved_dependency_accepted :
    create_task_graph "s" [badDepSpec]
      = .ok [{ task_id := "task_0_s", role := .executor, description := "x"
               dependencies := ["nonexistent_id"] }]
    ∧ "nonexistent_id" ≠ "task_0_s" :=
  ⟨rfl, by decide⟩

/-- C2 (amended): graph construction fails (with the `ValueError` of the
`AgentRole` enum constructor, abandoning the whole construction so that
no task list is returned) exactly on an unknown role; dependency ids
are not validated at all.  On success it returns one task per spec, in
order, with deterministic, pairwise-distinct ids
`task_{i}_{session_id}` and fields copied from the specs. -/
theorem task_graph_build_shape (sid : String) (specs : List SubtaskSpec) :
    ((∃ s ∈ specs, agentRoleOfValue (s.role.getD "executor") = none) →
      ∃ msg, create_task_graph sid specs = .error msg)
    ∧ ((∀ s ∈ specs, ∃ r, agentRoleOfValue (s.role.getD "executor") = some r) →
      ∃ ts, create_task_graph sid specs = .ok ts
        ∧ ts.length = specs.length
        ∧ (ts.map (·.task_id)).Nodup
        ∧ ∀ (k : Nat) (hk : k < ts.length) (hk' : k < specs.length),
            ∃ r, agentRoleOfValue (((specs.get ⟨k, hk'⟩).role).getD "executor") = some r
              ∧ ts.get ⟨k, hk⟩ =
                  { task_id := mkTaskId k sid
                    role := r
                    description := (specs.get ⟨k, hk'⟩).description
                    dependencies := ((specs.get ⟨k, hk'⟩).dependencies).getD [] }) := by
  constructor
  · rintro ⟨s, hs, hnone⟩
    exact create_task_graph_from_error sid specs 0 s hs hnone
  · intro hall
    obtain ⟨ts, hok, hlen, helem⟩ := create_task_graph_from_ok sid specs 0 hall
    refine ⟨ts, hok, hlen, create_task_graph_ids_nodup sid specs ts hok, ?_⟩
    intro k hk hk'
    obtain ⟨r, hr, hget⟩ := helem k hk hk'
    exact ⟨r, hr, by simpa using hget⟩

theorem task_graph_build_shape_witness :
    (∃ msg, create_task_graph "s" [badRoleSpec] = .error msg)
    ∧ ∃ ts, create_task_graph "s" [exSpecA] = .ok ts ∧ ts.length = 1 := by
  constructor
  · exact (task_graph_build_shape "s" [badRoleSpec]).1
      ⟨badRoleSpec, List.mem_cons_self _ _, by decide⟩
  · have hall : ∀ s ∈ [exSpecA], ∃ r, agentRoleOfValue (s.role.getD "executor") = some r := by
      intro s hs
      rcases List.mem_cons.mp hs with rfl | h
      · exact ⟨.researcher, by decide⟩
      · exact absurd h (List.not_mem_nil s)
    obtain ⟨ts, hok, hlen, -, -⟩ := (task_graph_build_shape "s" [exSpecA]).2 hall
    exact ⟨ts, hok, hlen.trans rfl⟩

/-- C10: whenever `orchestrate` returns (i.e. graph construction did not
raise), the top-level `status` is the constant `"completed"` regardless
of task failures or deadlock; `metadata` reports `total_tasks` as the
number of submitted specs and counts `completed`/`failed` over the final
task statuses; and a task still pending when the loop exited has no
entry at all in the returned result map. -/
theorem orchestrate_result_shape (delegate : AgentTask → Except String String)
    (cap : Nat) (sid mt : String) (subtasks : List SubtaskSpec)
    (tasks : List AgentTask) (res : OrchestrationResult)
    (hg : create_task_graph sid subtasks = .ok tasks)
    (ho : orchestrate delegate cap sid mt subtasks = .ok res) :
    res.status = "completed"
    ∧ res.main_task = mt
    ∧ res.session_id = sid
    ∧ res.total_tasks = subtasks.length
    ∧ res.results = (execute_task_graph delegate cap tasks []).results
    ∧ res.completed_tasks_count
        = (((execute_task_graph delegate cap tasks []).finished
            ++ (execute_task_graph delegate cap tasks []).pending_tasks).filter
              fun t => t.status == TaskStatus.completed).length
    ∧ res.failed_tasks_count
        = (((execute_task_graph delegate cap tasks []).finished
            ++ (execute_task_graph delegate cap tasks []).pending_tasks).filter
              fun t => t.status == TaskStatus.failed).length
    ∧ ∀ t ∈ (execute_task_graph delegate cap tasks []).pending_tasks,
        ∀ p ∈ res.results, t.task_id ≠ p.1 := by
  rw [orchestrate, hg] at ho
  simp only [Except.map] at ho
  have hres := (Except.ok.injEq .. ▸ ho :
    (_ : OrchestrationResult) = res)
  subst hres
  have hlen : tasks.length = subtasks.length := by
    have h := congrArg List.length (create_task_graph_from_ids sid subtasks 0 tasks hg)
    simpa using h
  refine ⟨rfl, rfl, rfl, hlen, rfl, rfl, rfl, ?_⟩
  intro t ht p hp
  exact loop_results_pending_disjoint delegate cap ⟨[], [], [], tasks⟩
    (create_task_graph_ids_nodup sid subtasks tasks hg)
    (fun p hp' => absurd hp' (List.not_mem_nil p)) p hp t ht

/-- The concrete dictionary `orchestrate` returns for the single-spec
run used as the C10 witness. -/
def exOrchRes : OrchestrationResult :=
  { main_task := "main", status := "completed"
    results := [("task_0_s", ⟨"completed", some "Task a completed by researcher", none⟩)]
    total_tasks := 1, completed_tasks_count := 1, failed_tasks_count := 0
    session_id := "s" }

theorem orchestrate_result_shape_witness :
    exOrchRes.status = "completed" ∧ exOrchRes.total_tasks = 1 := by
  have h1 : ready_tasks [exTaskA] [] = exTaskA :: [] := by decide
  have hround := loop_eq_round mock_delegate 5 ⟨[], [], [], [exTaskA]⟩ exTaskA [] h1
    (by decide)
  have h2 : run_batch mock_delegate
      ((exTaskA :: []).take (min (exTaskA :: []).length 5)) ⟨[], [], [], [exTaskA]⟩
      = ⟨[("task_0_s", ⟨"completed", some "Task a completed by researcher", none⟩)],
         ["task_0_s"],
         [{ task_id := "task_0_s", role := .researcher, description := "a"
            status := .completed, result := some "Task a completed by researcher"
            started_at := true, completed_at := true }],
         []⟩ := by decide
  have hloop : execute_task_graph mock_delegate 5 [exTaskA] []
      = ⟨[("task_0_s", ⟨"completed", some "Task a completed by researcher", none⟩)],
         ["task_0_s"],
         [{ task_id := "task_0_s", role := .researcher, description := "a"
            status := .completed, result := some "Task a completed by researcher"
            started_at := true, completed_at := true }],
         []⟩ := by
    show execute_task_graph_loop mock_delegate 5 ⟨[], [], [], [exTaskA]⟩ = _
    rw [hround, h2, loop_eq_done mock_delegate 5 _ rfl]
  have ho : orchestrate mock_delegate 5 "s" "main" [exSpecA] = .ok exOrchRes := by
    unfold orchestrate
    rw [show create_task_graph "s" [exSpecA] = .ok [exTaskA] from rfl]
    simp only [Except.map]
    rw [hloop]
    rfl
  have h := orchestrate_result_shape mock_delegate 5 "s" "main" [exSpecA] [exTaskA]
    exOrchRes rfl ho
  exact ⟨h.1, h.2.2.2.1⟩

end Biomni
